import Mathlib

/-!
Verification of the flux-link continuation-passing control-flow core.

Shallow embedding of the execution core (flux-link chain compositions,
the environment value stack, the exception-handler stack, the call-context
tree of flux-meta, and the tick scheduler), with theorems checking the
natural-language specification against the code.
-/

namespace FluxLink

/-- Argument adaptation, translated from `ChainBase.prototype.handle_args`.
`missing = params - args.length`.  The JS branches:
`missing == 0` returns `args` unchanged;
`missing > 0` does `stack.splice(-missing, missing).concat(args)` — i.e. it
removes the last `missing` stack values (push order preserved by `splice`)
and prepends them to `args`;
`missing < 0` does `stack = stack.concat(args.splice(missing, -missing))` —
`args.splice(missing, -missing)` starts at index `args.length + missing =
params` and removes `-missing` elements, so the trailing elements past
`params` move to the stack.  JS `splice` clamps a too-negative start to 0,
which Nat subtraction models exactly.  Returns (new stack, adapted args). -/
def handle_args {V : Type} (stack : List V) (params : Nat) (args : List V) :
    List V × List V :=
  if params = args.length then
    (stack, args)
  else if args.length < params then
    let missing := params - args.length
    (stack.take (stack.length - missing), stack.drop (stack.length - missing) ++ args)
  else
    (stack ++ args.drop params, args.take params)

/-- Claim C2: `handle_args` leaves exact-arity calls unchanged; with
`missing > 0` it removes the last `missing` stack values and prepends them
to the call arguments in push order; with `missing < 0` it moves the
trailing excess call arguments onto the stack preserving their order; and
the push-then-pop round trip returns the original excess arguments in their
original order. -/
theorem handle_args_spec (V : Type) :
    (∀ (stack args : List V) (p : Nat), args.length = p →
        handle_args stack p args = (stack, args)) ∧
    (∀ (s popped args : List V) (p : Nat), p = args.length + popped.length →
        handle_args (s ++ popped) p args = (s, popped ++ args)) ∧
    (∀ (stack args extra : List V) (p : Nat), args.length = p →
        handle_args stack p (args ++ extra) = (stack ++ extra, args)) ∧
    (∀ (stack args1 extra args2 : List V) (p1 p2 : Nat), args1.length = p1 →
        p2 = args2.length + extra.length →
        handle_args (handle_args stack p1 (args1 ++ extra)).1 p2 args2 =
          (stack, extra ++ args2)) := by
  have hexact : ∀ (stack args : List V) (p : Nat), args.length = p →
      handle_args stack p args = (stack, args) := by
    intro stack args p h
    simp [handle_args, h]
  have hpop : ∀ (s popped args : List V) (p : Nat), p = args.length + popped.length →
      handle_args (s ++ popped) p args = (s, popped ++ args) := by
    intro s popped args p h
    rcases popped with _ | ⟨x, xs⟩
    · simp only [List.append_nil, List.nil_append]
      exact hexact s args p (by simp at h; omega)
    · have hlt : args.length < p := by
        simp only [List.length_cons] at h
        omega
      have hne : ¬ p = args.length := by omega
      have hmiss : p - args.length = (x :: xs).length := by
        simp only [List.length_cons] at h ⊢
        omega
      rw [handle_args]
      simp only [if_neg hne, if_pos hlt, hmiss]
      have hlen : (s ++ x :: xs).length - (x :: xs).length = s.length := by
        simp
      rw [hlen, List.take_left, List.drop_left]
  have hpush : ∀ (stack args extra : List V) (p : Nat), args.length = p →
      handle_args stack p (args ++ extra) = (stack ++ extra, args) := by
    intro stack args extra p h
    rcases extra with _ | ⟨x, xs⟩
    · simp only [List.append_nil]
      exact hexact stack args p h
    · have hne : ¬ p = (args ++ x :: xs).length := by simp [← h]
      have hge : ¬ (args ++ x :: xs).length < p := by simp [← h]
      rw [handle_args]
      simp only [if_neg hne, if_neg hge]
      subst h
      rw [List.drop_left args (x :: xs), List.take_left args (x :: xs)]
  refine ⟨hexact, hpop, hpush, ?_⟩
  intro stack args1 extra args2 p1 p2 h1 h2
  rw [hpush stack args1 extra p1 h1]
  exact hpop stack extra args2 p2 h2

/-- Claim C2 witness: a concrete round trip — one adaptation stashes the two
excess arguments `[2, 3]`, and a later under-supplied adaptation returns
them in original order ahead of the new argument `4`. -/
theorem handle_args_spec_witness :
    handle_args (handle_args ([9] : List Nat) 1 [1, 2, 3]).1 3 [4] = ([9], [2, 3, 4]) :=
  (handle_args_spec Nat).2.2.2 [9] [1] [2, 3] [4] 1 3 rfl rfl

/-- A result slot value, translated from `parallel_terminator`: a branch that
passed exactly one value has it stored directly (`arguments.length == 2`
stores `arguments[1]`), and a branch that passed several values has the
slice stored (`slice.call(arguments, 1)`). -/
inductive ResVal (V : Type) : Type where
  | single : V → ResVal V
  | multi : List V → ResVal V
deriving DecidableEq

/-- A branch-completion event of a Parallel Chain: the branch either invoked
its terminator continuation with a list of values (`ok`), or raised an
exception through its local environment (`exc`), which runs
`__inner_handler` and then `env.$catch()` — which calls the recorded
terminator with no arguments. -/
inductive PEvent (V E : Type) : Type where
  | ok : List V → PEvent V E
  | exc : E → PEvent V E
deriving DecidableEq

/-- The shared closure state of `ParallelChain.prototype.apply`, plus the
observable outputs: `afters` records each invocation of the wrapped terminal
continuation (`some results` for `after(results)`, `none` for a bare
`after()`), and `thrown` records each `env.$throw(exception)` re-raise on
the parent environment. -/
@[ext] structure PState (V E : Type) : Type where
  expected : Nat
  results : List (Option (ResVal V))
  send_results : Bool
  exception_happened : Bool
  exception : Option E
  afters : List (Option (List (Option (ResVal V))))
  thrown : List (Option E)
deriving DecidableEq

/-- Store a branch's passed values, as `parallel_terminator` does. -/
def mkRes {V : Type} : List V → ResVal V
  | [w] => .single w
  | ws => .multi ws

/-- The `arguments.length > 1` branch of `parallel_terminator`: a branch that
passed at least one value records it at its index and sets the
`send_results` flag. -/
def record_result {V E : Type} (s : PState V E) (id : Nat) (ws : List V) :
    PState V E :=
  if ws.isEmpty then s
  else { s with results := s.results.set id (some (mkRes ws)), send_results := true }

/-- The countdown at the end of `parallel_terminator`: decrement `expected`;
at zero, re-throw the recorded exception if any branch failed, otherwise
fire `after(results)` if some branch produced output, else a bare
`after()`. -/
def fire_check {V E : Type} (s : PState V E) : PState V E :=
  let e := s.expected - 1
  if e = 0 then
    if s.exception_happened then
      { s with expected := e, thrown := s.thrown ++ [s.exception] }
    else if s.send_results then
      { s with expected := e, afters := s.afters ++ [some s.results] }
    else
      { s with expected := e, afters := s.afters ++ [none] }
  else { s with expected := e }

/-- One branch completion, translated from `parallel_terminator` and
`__inner_handler`: a successful branch records its values then counts down;
a throwing branch sets `exception_happened`/`exception` (via
`__inner_handler`) and then counts down with no values (since `env.$catch()`
invokes the bound terminator with no extra arguments). -/
def parallel_terminator {V E : Type} (s : PState V E) (ev : Nat × PEvent V E) :
    PState V E :=
  match ev with
  | (id, .ok ws) => fire_check (record_result s id ws)
  | (_, .exc err) =>
      fire_check { s with exception_happened := true, exception := some err }

/-- The state set up at the start of `ParallelChain.prototype.apply`:
`expected = fns.length`, `results = new Array(expected)`, all flags clear,
nothing yet observed. -/
def initPState (V E : Type) (n : Nat) : PState V E :=
  ⟨n, List.replicate n none, false, false, none, [], []⟩

/-- Run a Parallel Chain of `n` branches through a given completion order:
fold the terminator over the branch-completion events. -/
def run_parallel {V E : Type} (n : Nat) (evs : List (Nat × PEvent V E)) :
    PState V E :=
  evs.foldl parallel_terminator (initPState V E n)

/-- One completion event's effect on the per-index result assignment. -/
def res_step {V E : Type} (g : Nat → Option (ResVal V)) (ev : Nat × PEvent V E) :
    Nat → Option (ResVal V) :=
  match ev with
  | (id, .ok ws) =>
      if ws.isEmpty then g else fun j => if j = id then some (mkRes ws) else g j
  | (_, .exc _) => g

/-- Characterization of the results slots after a list of completion
events: the function giving each branch index its recorded value. -/
def res_fun {V E : Type} (evs : List (Nat × PEvent V E)) :
    Nat → Option (ResVal V) :=
  evs.foldl res_step (fun _ => none)

/-- Whether some completed branch has passed at least one value. -/
def send_of {V E : Type} (evs : List (Nat × PEvent V E)) : Bool :=
  evs.any fun ev =>
    match ev.2 with
    | .ok ws => !ws.isEmpty
    | .exc _ => false

/-- Whether some completed branch raised an exception. -/
def exc_of {V E : Type} (evs : List (Nat × PEvent V E)) : Bool :=
  evs.any fun ev =>
    match ev.2 with
    | .ok _ => false
    | .exc _ => true

/-- The last-recorded exception after a list of completion events. -/
def last_exc {V E : Type} (evs : List (Nat × PEvent V E)) : Option E :=
  evs.foldl
    (fun a ev =>
      match ev.2 with
      | .ok _ => a
      | .exc x => some x)
    none

/-- The exceptions raised by branches, in completion order. -/
def errs_of {V E : Type} (evs : List (Nat × PEvent V E)) : List E :=
  evs.filterMap fun ev =>
    match ev.2 with
    | .ok _ => none
    | .exc x => some x

/-- The closure state mid-run, before the counter reaches zero. -/
def midPState {V E : Type} (n : Nat) (evs : List (Nat × PEvent V E)) :
    PState V E :=
  ⟨n - evs.length, (List.range n).map (res_fun evs), send_of evs, exc_of evs,
    last_exc evs, [], []⟩

theorem set_map_range {α : Type} (n id : Nat) (h : id < n) (f : Nat → α) (v : α) :
    ((List.range n).map f).set id v =
      (List.range n).map (fun j => if j = id then v else f j) := by
  apply List.ext_getElem?
  intro i
  rcases Nat.lt_or_ge i n with hi | hi
  · rcases eq_or_ne i id with rfl | hne
    · rw [List.getElem?_set_self (by simpa using hi), List.getElem?_map,
        List.getElem?_range hi]
      simp
    · rw [List.getElem?_set_ne (Ne.symm hne)]
      simp [List.getElem?_range hi, hne]
  · have e1 : (((List.range n).map f).set id v)[i]? = none :=
      List.getElem?_eq_none (by simpa using hi)
    have e2 : ((List.range n).map fun j => if j = id then v else f j)[i]? = none :=
      List.getElem?_eq_none (by simpa using hi)
    rw [e1, e2]

theorem pstep_mid {V E : Type} (n : Nat) (evs : List (Nat × PEvent V E))
    (e : Nat × PEvent V E) (hlt : evs.length + 1 < n) (hid : e.1 < n) :
    parallel_terminator (midPState n evs) e = midPState n (evs ++ [e]) := by
  have hfire : ∀ s : PState V E, s.expected = n - evs.length →
      fire_check s = { s with expected := n - (evs.length + 1) } := by
    intro s hs
    have hne : ¬ s.expected - 1 = 0 := by omega
    have he : s.expected - 1 = n - (evs.length + 1) := by omega
    simp only [fire_check]
    rw [if_neg hne, he]
  obtain ⟨id, ev⟩ := e
  cases ev with
  | ok ws =>
      have hexcf : exc_of (evs ++ [(id, PEvent.ok (E := E) ws)]) = exc_of evs := by
        simp [exc_of, List.any_append]
      have hlastf : last_exc (evs ++ [(id, PEvent.ok (E := E) ws)]) =
          last_exc evs := by
        simp [last_exc, List.foldl_append]
      by_cases hws : ws.isEmpty
      · have hresf : res_fun (evs ++ [(id, PEvent.ok (E := E) ws)]) =
            res_fun evs := by
          simp [res_fun, res_step, List.foldl_append, hws]
        have hsendf : send_of (evs ++ [(id, PEvent.ok (E := E) ws)]) =
            send_of evs := by
          simp [send_of, List.any_append, hws]
        have hrec : record_result (midPState n evs) id ws = midPState n evs := by
          simp [record_result, hws]
        simp only [parallel_terminator, hrec]
        rw [hfire _ rfl]
        refine PState.ext ?_ ?_ ?_ ?_ ?_ ?_ ?_ <;>
          simp [midPState, hexcf, hlastf, hresf, hsendf]
      · have hresf : res_fun (evs ++ [(id, PEvent.ok (E := E) ws)]) =
            fun j => if j = id then some (mkRes ws) else res_fun evs j := by
          simp [res_fun, res_step, List.foldl_append, hws]
        have hsendf : send_of (evs ++ [(id, PEvent.ok (E := E) ws)]) = true := by
          simp [send_of, List.any_append, hws]
        have hrec : record_result (midPState n evs) id ws =
            { midPState n evs with
              results := ((List.range n).map (res_fun evs)).set id
                (some (mkRes ws)),
              send_results := true } := by
          simp [record_result, hws, midPState]
        simp only [parallel_terminator, hrec]
        rw [hfire _ rfl]
        refine PState.ext ?_ ?_ ?_ ?_ ?_ ?_ ?_
        · simp [midPState]
        · simp only [midPState]
          rw [set_map_range n id (by simpa using hid), hresf]
        · simp [midPState, hsendf]
        · simp [midPState, hexcf]
        · simp [midPState, hlastf]
        · simp [midPState]
        · simp [midPState]
  | exc x =>
      have hexcf : exc_of (evs ++ [(id, PEvent.exc (V := V) x)]) =
          (exc_of evs || true) := by
        simp [exc_of, List.any_append]
      have hlastf : last_exc (evs ++ [(id, PEvent.exc (V := V) x)]) = some x := by
        simp [last_exc, List.foldl_append]
      have hresf : res_fun (evs ++ [(id, PEvent.exc (V := V) x)]) =
          res_fun evs := by
        simp [res_fun, res_step, List.foldl_append]
      have hsendf : send_of (evs ++ [(id, PEvent.exc (V := V) x)]) =
          send_of evs := by
        simp [send_of, List.any_append]
      simp only [parallel_terminator]
      rw [hfire _ rfl]
      refine PState.ext ?_ ?_ ?_ ?_ ?_ ?_ ?_ <;>
        simp [midPState, hexcf, hlastf, hresf, hsendf]

theorem run_mid {V E : Type} (n : Nat) (evs : List (Nat × PEvent V E))
    (hlen : evs.length < n) (hids : ∀ p ∈ evs, p.1 < n) :
    run_parallel n evs = midPState n evs := by
  induction evs using List.reverseRecOn with
  | nil =>
      simp only [run_parallel, List.foldl_nil, initPState, midPState]
      simp [res_fun, send_of, exc_of, last_exc, List.map_const']
  | append_singleton q e ih =>
      have hq : q.length < n := by
        simp only [List.length_append, List.length_singleton] at hlen
        omega
      have hqids : ∀ p ∈ q, p.1 < n := fun p hp => hids p (by simp [hp])
      have hrun : run_parallel n (q ++ [e]) =
          parallel_terminator (run_parallel n q) e := by
        simp [run_parallel, List.foldl_append]
      rw [hrun, ih hq hqids]
      exact pstep_mid n q e (by simpa using hlen) (hids e (by simp))

theorem run_final {V E : Type} (n : Nat) (evs : List (Nat × PEvent V E))
    (e : Nat × PEvent V E) (hlen : evs.length + 1 = n)
    (hids : ∀ p ∈ evs ++ [e], p.1 < n) :
    run_parallel n (evs ++ [e]) =
      ⟨0, (List.range n).map (res_fun (evs ++ [e])), send_of (evs ++ [e]),
        exc_of (evs ++ [e]), last_exc (evs ++ [e]),
        (if exc_of (evs ++ [e]) then []
          else [if send_of (evs ++ [e]) then
              some ((List.range n).map (res_fun (evs ++ [e]))) else none]),
        (if exc_of (evs ++ [e]) then [last_exc (evs ++ [e])] else [])⟩ := by
  have hqlen : evs.length < n := by omega
  have hqids : ∀ p ∈ evs, p.1 < n := fun p hp => hids p (by simp [hp])
  have hid : e.1 < n := hids e (by simp)
  have hrun : run_parallel n (evs ++ [e]) =
      parallel_terminator (midPState n evs) e := by
    rw [show run_parallel n (evs ++ [e]) =
        parallel_terminator (run_parallel n evs) e by
      simp [run_parallel, List.foldl_append]]
    rw [run_mid n evs hqlen hqids]
  rw [hrun]
  have hexp : (midPState n evs).expected = 1 := by
    simp only [midPState]
    omega
  have hfire0 : ∀ s : PState V E, s.expected = 1 →
      fire_check s =
        (if s.exception_happened then
          { s with expected := 0, thrown := s.thrown ++ [s.exception] }
        else if s.send_results then
          { s with expected := 0, afters := s.afters ++ [some s.results] }
        else { s with expected := 0, afters := s.afters ++ [none] }) := by
    intro s hs
    simp [fire_check, hs]
  obtain ⟨id, ev⟩ := e
  cases ev with
  | ok ws =>
      have hexcf : exc_of (evs ++ [(id, PEvent.ok ws)]) = exc_of evs := by
        simp [exc_of, List.any_append]
      have hlastf : last_exc (evs ++ [(id, PEvent.ok ws)]) = last_exc evs := by
        simp [last_exc, List.foldl_append]
      by_cases hws : ws.isEmpty
      · have hrec : record_result (midPState n evs) id ws = midPState n evs := by
          simp [record_result, hws]
        have hresf : res_fun (evs ++ [(id, PEvent.ok ws)]) = res_fun evs := by
          simp [res_fun, res_step, List.foldl_append, hws]
        have hsendf : send_of (evs ++ [(id, PEvent.ok ws)]) = send_of evs := by
          simp [send_of, List.any_append, hws]
        simp only [parallel_terminator, hrec]
        rw [hfire0 _ hexp, hexcf, hlastf, hresf, hsendf]
        by_cases hexc : exc_of evs
        · simp [midPState, hexc]
        · by_cases hsend : send_of evs
          · simp [midPState, hexc, hsend]
          · simp [midPState, hexc, hsend]
      · have hresf : res_fun (evs ++ [(id, PEvent.ok ws)]) =
            fun j => if j = id then some (mkRes ws) else res_fun evs j := by
          simp [res_fun, res_step, List.foldl_append, hws]
        have hsendf : send_of (evs ++ [(id, PEvent.ok ws)]) = true := by
          simp [send_of, List.any_append, hws]
        have hrec : record_result (midPState n evs) id ws =
            { midPState n evs with
              results := (List.range n).map (res_fun (evs ++ [(id, PEvent.ok ws)])),
              send_results := true } := by
          simp only [record_result, hws, Bool.false_eq_true, if_neg,
            not_false_eq_true, midPState]
          rw [set_map_range n id (by simpa using hid), hresf]
        simp only [parallel_terminator, hrec]
        rw [hfire0 _ (by simpa [midPState] using hexp), hexcf, hlastf, hsendf]
        by_cases hexc : exc_of evs
        · simp [midPState, hexc]
        · simp [midPState, hexc]
  | exc x =>
      have hexcf : exc_of (evs ++ [(id, PEvent.exc (V := V) x)]) = true := by
        simp [exc_of, List.any_append]
      have hlastf : last_exc (evs ++ [(id, PEvent.exc (V := V) x)]) = some x := by
        simp [last_exc, List.foldl_append]
      have hresf : res_fun (evs ++ [(id, PEvent.exc (V := V) x)]) = res_fun evs := by
        simp [res_fun, res_step, List.foldl_append]
      have hsendf : send_of (evs ++ [(id, PEvent.exc (V := V) x)]) = send_of evs := by
        simp [send_of, List.any_append]
      simp only [parallel_terminator]
      rw [hfire0 _ (by simpa [midPState] using hexp), hexcf, hlastf, hresf, hsendf]
      simp [midPState]

theorem run_full {V E : Type} (n : Nat) (evs : List (Nat × PEvent V E))
    (hlen : evs.length = n) (hn : 0 < n) (hids : ∀ p ∈ evs, p.1 < n) :
    run_parallel n evs =
      ⟨0, (List.range n).map (res_fun evs), send_of evs, exc_of evs, last_exc evs,
        (if exc_of evs then []
          else [if send_of evs then
              some ((List.range n).map (res_fun evs)) else none]),
        (if exc_of evs then [last_exc evs] else [])⟩ := by
  rcases List.eq_nil_or_concat evs with rfl | ⟨q, a, rfl⟩
  · simp at hlen
    omega
  · rw [List.concat_eq_append] at hids ⊢
    refine run_final n q a ?_ hids
    rw [List.concat_eq_append] at hlen
    simp at hlen
    omega

theorem res_fun_okmap {V E : Type} (v : Nat → V) (l : List Nat)
    (g : Nat → Option (ResVal V)) :
    (l.map fun i => ((i, PEvent.ok [v i]) : Nat × PEvent V E)).foldl res_step g =
      fun j => if j ∈ l then some (ResVal.single (v j)) else g j := by
  induction l generalizing g with
  | nil =>
      funext j
      simp
  | cons x xs ih =>
      funext j
      simp only [List.map_cons, List.foldl_cons]
      rw [ih]
      by_cases hj : j ∈ xs
      · simp [hj, List.mem_cons]
      · by_cases hx : j = x
        · subst hx
          simp [hj, res_step, mkRes]
        · simp [hj, hx, res_step]

theorem exc_of_okmap {V E : Type} (v : Nat → V) (l : List Nat) :
    exc_of (l.map fun i => ((i, PEvent.ok [v i]) : Nat × PEvent V E)) = false := by
  induction l with
  | nil => rfl
  | cons x xs ih => simp [exc_of]

theorem send_of_okmap {V E : Type} (v : Nat → V) (x : Nat) (xs : List Nat) :
    send_of ((x :: xs).map fun i =>
      ((i, PEvent.ok [v i]) : Nat × PEvent V E)) = true := by
  simp [send_of]

theorem last_exc_eq_getLast {V E : Type} (evs : List (Nat × PEvent V E)) :
    last_exc evs = (errs_of evs).getLast? := by
  induction evs using List.reverseRecOn with
  | nil => rfl
  | append_singleton q e ih =>
      obtain ⟨id, ev⟩ := e
      cases ev with
      | ok ws =>
          have h1 : last_exc (q ++ [(id, PEvent.ok (E := E) ws)]) = last_exc q := by
            simp [last_exc, List.foldl_append]
          have h2 : errs_of (q ++ [(id, PEvent.ok (E := E) ws)]) = errs_of q := by
            simp [errs_of, List.filterMap_append]
          rw [h1, h2, ih]
      | exc x =>
          have h1 : last_exc (q ++ [(id, PEvent.exc (V := V) x)]) = some x := by
            simp [last_exc, List.foldl_append]
          have h2 : errs_of (q ++ [(id, PEvent.exc (V := V) x)]) =
              errs_of q ++ [x] := by
            simp [errs_of, List.filterMap_append]
          rw [h1, h2, List.getLast?_concat]

theorem errs_ne_of_exc {V E : Type} (evs : List (Nat × PEvent V E))
    (h : exc_of evs = true) : errs_of evs ≠ [] := by
  induction evs with
  | nil => simp [exc_of] at h
  | cons a l ih =>
      obtain ⟨id, ev⟩ := a
      cases ev with
      | ok ws =>
          have h1 : exc_of l = true := by simpa [exc_of] using h
          simpa [errs_of] using ih h1
      | exc x => simp [errs_of]

/-- Claim C1 counterexample: a Parallel Chain with zero steps (every branch
vacuously passes a distinct single value) never invokes its terminal
continuation, so "invoked exactly once" fails at N = 0. -/
theorem parallel_results_ordered_cex :
    (run_parallel (V := Nat) (E := Unit) 0 []).afters.length ≠ 1 := by
  decide

/-- Claim C1 (amended: N ≥ 1): for a Parallel Chain of N ≥ 1 steps in which
branch `i` passes the single value `v i` to its terminal continuation, for
every completion order (any permutation of the branch indices), the terminal
"after" is invoked exactly once, with a results sequence of length N whose
index-`i` entry holds the value of branch `i`, and nothing is thrown. -/
theorem parallel_results_ordered (V : Type) (n : Nat) (v : Nat → V)
    (ord : List Nat) (hperm : ord.Perm (List.range n)) (hn : 0 < n) :
    (run_parallel n (ord.map fun i =>
        ((i, PEvent.ok [v i]) : Nat × PEvent V Unit))).afters =
      [some ((List.range n).map fun i => some (ResVal.single (v i)))] ∧
    (run_parallel n (ord.map fun i =>
        ((i, PEvent.ok [v i]) : Nat × PEvent V Unit))).thrown = [] := by
  have hlen : (ord.map fun i =>
      ((i, PEvent.ok [v i]) : Nat × PEvent V Unit)).length = n := by
    simp [hperm.length_eq]
  have hids : ∀ p ∈ (ord.map fun i =>
      ((i, PEvent.ok [v i]) : Nat × PEvent V Unit)), p.1 < n := by
    intro p hp
    rw [List.mem_map] at hp
    obtain ⟨i, hi, rfl⟩ := hp
    exact List.mem_range.mp (hperm.mem_iff.mp hi)
  rw [run_full n _ hlen hn hids]
  have hexc : exc_of (ord.map fun i =>
      ((i, PEvent.ok [v i]) : Nat × PEvent V Unit)) = false := exc_of_okmap v ord
  have hres : (List.range n).map (res_fun (ord.map fun i =>
      ((i, PEvent.ok [v i]) : Nat × PEvent V Unit))) =
      (List.range n).map fun i => some (ResVal.single (v i)) := by
    rw [show res_fun (ord.map fun i =>
        ((i, PEvent.ok [v i]) : Nat × PEvent V Unit)) =
        fun j => if j ∈ ord then some (ResVal.single (v j)) else none from
      res_fun_okmap v ord _]
    refine List.map_congr_left ?_
    intro j hj
    rw [if_pos (hperm.mem_iff.mpr hj)]
  obtain ⟨x, xs, rfl⟩ : ∃ x xs, ord = x :: xs := by
    cases ord with
    | nil =>
        exfalso
        have := hperm.length_eq
        simp at this
        omega
    | cons x xs => exact ⟨x, xs, rfl⟩
  have hsend : send_of ((x :: xs).map fun i =>
      ((i, PEvent.ok [v i]) : Nat × PEvent V Unit)) = true := send_of_okmap v x xs
  constructor
  · simp only [hexc, hsend, hres, Bool.false_eq_true, if_false, if_true]
  · simp only [hexc, Bool.false_eq_true, if_false]

/-- Claim C1 witness: three branches completing in the order 2, 0, 1 still
deliver `after` exactly once with the results `[0, 1, 2]` in branch-index
order. -/
theorem parallel_results_ordered_witness :
    (run_parallel 3 (([2, 0, 1] : List Nat).map fun i =>
        ((i, PEvent.ok [i]) : Nat × PEvent Nat Unit))).afters =
      [some ((List.range 3).map fun i => some (ResVal.single i))] ∧
    (run_parallel 3 (([2, 0, 1] : List Nat).map fun i =>
        ((i, PEvent.ok [i]) : Nat × PEvent Nat Unit))).thrown = [] :=
  parallel_results_ordered Nat 3 (fun i => i) [2, 0, 1] (by decide) (by decide)

/-- Claim C3: if at least one branch of a Parallel Chain throws, the terminal
"after" is never invoked; when the completion counter reaches zero exactly
one exception is re-thrown to the enclosing scope, and it is the
last-recorded one (the other branch exceptions are dropped). -/
theorem parallel_exception_spec (V E : Type) (n : Nat)
    (evs : List (Nat × PEvent V E))
    (hperm : (evs.map Prod.fst).Perm (List.range n))
    (hexc : exc_of evs = true) :
    (run_parallel n evs).afters = [] ∧
    (run_parallel n evs).thrown = [(errs_of evs).getLast?] ∧
    errs_of evs ≠ [] := by
  have hlen : evs.length = n := by
    have h := hperm.length_eq
    rw [List.length_map, List.length_range] at h
    exact h
  have hn : 0 < n := by
    cases evs with
    | nil => simp [exc_of] at hexc
    | cons a l =>
        simp only [List.length_cons] at hlen
        omega
  have hids : ∀ p ∈ evs, p.1 < n := by
    intro p hp
    exact List.mem_range.mp (hperm.mem_iff.mp (List.mem_map_of_mem Prod.fst hp))
  rw [run_full n evs hlen hn hids]
  refine ⟨by simp [hexc], ?_, errs_ne_of_exc evs hexc⟩
  simp only [hexc, if_true, last_exc_eq_getLast]

/-- Claim C3 witness: two branches, the second throwing `7`, yield no
`after` invocation and a single re-thrown exception `7`. -/
theorem parallel_exception_spec_witness :
    (run_parallel 2 [((0, PEvent.ok [5]) : Nat × PEvent Nat Nat),
        (1, PEvent.exc 7)]).afters = [] ∧
    (run_parallel 2 [((0, PEvent.ok [5]) : Nat × PEvent Nat Nat),
        (1, PEvent.exc 7)]).thrown =
      [(errs_of [((0, PEvent.ok [5]) : Nat × PEvent Nat Nat),
          (1, PEvent.exc 7)]).getLast?] ∧
    errs_of [((0, PEvent.ok [5]) : Nat × PEvent Nat Nat),
        (1, PEvent.exc 7)] ≠ [] :=
  parallel_exception_spec Nat Nat 2 _ (by decide) (by decide)

/-- Claim C10: an empty Parallel Chain starts its completion counter at the
branch count 0, no terminator is ever created or invoked (there are no
branch-completion events), and the run neither invokes the terminal "after"
nor throws — the invocation silently stalls. -/
theorem parallel_empty_stalls (V E : Type) :
    (run_parallel (V := V) (E := E) 0 []).afters = [] ∧
    (run_parallel (V := V) (E := E) 0 []).thrown = [] ∧
    (initPState V E 0).expected = 0 :=
  ⟨rfl, rfl, rfl⟩

/-- One run of a Loop Chain, translated from `LoopChain.prototype.apply`.
The condition is modelled as a function of its check index and its adapted
arguments, returning the leading boolean `result` and the pass-through
values (`slice.call(arguments, 1)` in `handle`); the body (the chain's
serial step sequence) is abstracted as a value transformer `bodyF` applied
to its adapted initial arguments.  Each check adapts its arguments through
`handle_args` with the condition's arity (`check`), and each body entry
adapts the pass-through values with the first body step's arity
(`handle`, via `that.handle_args(env, info, slice.call(arguments, 1))`).
On a false result the pass-through values go to the terminal "after"
unadapted.  `fuel` bounds the recursion (the code itself has no cap);
the result is `some (bodyRuns, conditionChecks, afterArgs)` when the loop
finishes within `fuel` checks. -/
def loop_go {V : Type} (cond : Nat → List V → Bool × List V)
    (bodyF : List V → List V) (condParams bodyParams : Nat) :
    Nat → Nat → List V → List V → Option (Nat × Nat × List V)
  | 0, _, _, _ => none
  | fuel + 1, k, stack, args =>
      let ca := handle_args stack condParams args
      let rv := cond k ca.2
      if rv.1 then
        let ba := handle_args ca.1 bodyParams rv.2
        (loop_go cond bodyF condParams bodyParams fuel (k + 1) ba.1
            (bodyF ba.2)).map
          (fun r => (r.1 + 1, r.2.1 + 1, r.2.2))
      else
        some (0, 1, rv.2)

theorem loop_go_aux {V : Type} (cond : Nat → List V → Bool × List V)
    (bodyF : List V → List V) (condParams bodyParams M : Nat)
    (hcond : ∀ k a, (cond k a).1 = decide (k < M)) :
    ∀ (m k : Nat), k + m = M → ∀ (stack args : List V),
      ∃ c, loop_go cond bodyF condParams bodyParams (m + 1) k stack args =
        some (m, m + 1, (cond M c).2) := by
  intro m
  induction m with
  | zero =>
      intro k hk stack args
      obtain rfl : k = M := by omega
      refine ⟨(handle_args stack condParams args).2, ?_⟩
      have hstep : loop_go cond bodyF condParams bodyParams (0 + 1) k stack args =
          if (cond k (handle_args stack condParams args).2).1 then
            (loop_go cond bodyF condParams bodyParams 0 (k + 1)
              (handle_args (handle_args stack condParams args).1 bodyParams
                (cond k (handle_args stack condParams args).2).2).1
              (bodyF (handle_args (handle_args stack condParams args).1 bodyParams
                (cond k (handle_args stack condParams args).2).2).2)).map
              (fun r => (r.1 + 1, r.2.1 + 1, r.2.2))
          else some (0, 1, (cond k (handle_args stack condParams args).2).2) := rfl
      have hfalse : (cond k (handle_args stack condParams args).2).1 = false := by
        rw [hcond]
        exact decide_eq_false (by omega)
      rw [hstep, hfalse]
      simp
  | succ m ih =>
      intro k hk stack args
      have htrue : (cond k (handle_args stack condParams args).2).1 = true := by
        rw [hcond]
        exact decide_eq_true (by omega)
      obtain ⟨c, hc⟩ := ih (k + 1) (by omega)
        (handle_args (handle_args stack condParams args).1 bodyParams
          (cond k (handle_args stack condParams args).2).2).1
        (bodyF (handle_args (handle_args stack condParams args).1 bodyParams
          (cond k (handle_args stack condParams args).2).2).2)
      refine ⟨c, ?_⟩
      have hstep : loop_go cond bodyF condParams bodyParams (m + 1 + 1) k stack
          args =
          if (cond k (handle_args stack condParams args).2).1 then
            (loop_go cond bodyF condParams bodyParams (m + 1) (k + 1)
              (handle_args (handle_args stack condParams args).1 bodyParams
                (cond k (handle_args stack condParams args).2).2).1
              (bodyF (handle_args (handle_args stack condParams args).1 bodyParams
                (cond k (handle_args stack condParams args).2).2).2)).map
              (fun r => (r.1 + 1, r.2.1 + 1, r.2.2))
          else some (0, 1, (cond k (handle_args stack condParams args).2).2) := rfl
      rw [hstep, htrue, if_pos rfl, hc]
      rfl

/-- Claim C4: for a Loop Chain whose condition yields true exactly M times
and then false, an invocation runs the body exactly M times and fires the
terminal "after" exactly once, after the (M+1)-th condition check, passing
"after" the final check's pass-through values (`(cond M c).2`); on each true
result the body receives the condition's pass-through values (adapted by
`handle_args`) as its initial arguments and the condition is re-checked with
the body's final output (`bodyF` applied inside the recursion). -/
theorem loop_chain_counts (V : Type) (cond : Nat → List V → Bool × List V)
    (bodyF : List V → List V) (condParams bodyParams M : Nat)
    (stack args : List V)
    (hcond : ∀ k a, (cond k a).1 = decide (k < M)) :
    ∃ c, loop_go cond bodyF condParams bodyParams (M + 1) 0 stack args =
      some (M, M + 1, (cond M c).2) :=
  loop_go_aux cond bodyF condParams bodyParams M hcond M 0 (by omega) stack args

/-- Claim C4 witness: a loop whose condition is true exactly twice runs its
body twice and reaches "after" at the third check. -/
theorem loop_chain_counts_witness :
    ∃ c, loop_go (fun k _ => (decide (k < 2), [k])) (fun a => a) 0 0 3 0
        ([] : List Nat) [] = some (2, 3, ((fun (k : Nat) (_ : List Nat) =>
          (decide (k < 2), [k])) 2 c).2) :=
  loop_chain_counts Nat (fun k _ => (decide (k < 2), [k])) (fun a => a) 0 0 2
    [] [] (fun _ _ => rfl)

/-- A call-context node, translated from `Context` in flux-meta: a display
name, a `next` pointer (next call in the same composition), a `child`
pointer (nested composition), and a flag marking `ContextHead` sentinel
nodes (in the source, heads are instances of the `ContextHead` subclass). -/
inductive Ctx : Type where
  | node (name : String) (head : Bool) (next child : Option Ctx)

/-- Display name of a context node. -/
def Ctx.cname : Ctx → String
  | .node nm _ _ _ => nm

/-- Whether a context node is a `ContextHead` sentinel. -/
def Ctx.chead : Ctx → Bool
  | .node _ hd _ _ => hd

/-- Translated from `Context.prototype.bt_get_next`: during a back-trace
traversal, return `next` if it is non-null, else `child`. -/
def bt_get_next : Ctx → Option Ctx
  | .node _ _ (some nx2) _ => some nx2
  | .node _ _ none ch => ch

/-- Translated from `Context.prototype.bt_depth_increase`: the traversal
depth increases exactly when `bt_get_next` falls through to `child`
(i.e. when `next` is null). -/
def bt_depth_increase : Ctx → Bool
  | .node _ _ none _ => true
  | .node _ _ (some _) _ => false

/-- Translated from `FluxMeta.prototype.$get_back_trace`: walk the context
list starting at `call_first`, emitting `(name, depth)` for every node that
is not a `ContextHead`, stepping with `bt_get_next` and bumping the depth
by `bt_depth_increase` (the match below inlines those two helpers so that
the recursion is structural). -/
def get_back_trace : Option Ctx → Nat → List (String × Nat)
  | none, _ => []
  | some (.node nm hd nx ch), d =>
      (if hd then [] else [(nm, d)]) ++
        (match nx with
         | some nx2 => get_back_trace (some nx2) d
         | none => get_back_trace ch (d + 1))

/-- The traversal described by claim C7's words (not by the code): at each
node prefer descending into the child when present, with a depth increase,
and otherwise continue to the sibling at the same depth, omitting head
nodes.  Kept only to compare against `get_back_trace`. -/
def bt_claimed : Option Ctx → Nat → List (String × Nat)
  | none, _ => []
  | some (.node nm hd nx ch), d =>
      (if hd then [] else [(nm, d)]) ++
        (match ch with
         | some ch2 => bt_claimed (some ch2) (d + 1)
         | none => bt_claimed nx d)

/-- Indentation used by the trace formatters: `new Array(1+depth).join('  ')`
is the two-space string repeated `depth` times. -/
def indentStr (d : Nat) : String :=
  String.join (List.replicate d "  ")

/-- One `reduceRight` step of `FluxMeta.prototype.$format_stack_trace`: the
accumulator carries the string built so far and the previous element's
depth (the mutable `depth` variable, initially 0); the label is "after "
when the depth is unchanged and "in " when it changed. -/
def fst_step (p : String × Nat) (v : String × Nat) : String × Nat :=
  (p.1 ++ "\n      " ++ indentStr v.2 ++
    (if p.2 = v.2 then "after " else "in ") ++ v.1, v.2)

/-- Translated from `FluxMeta.prototype.$format_stack_trace`: a
`reduceRight` over the trace starting from the empty string, i.e. a left
fold over the reversed trace. -/
def format_stack_trace (bt : List (String × Nat)) : String :=
  (bt.reverse.foldl fst_step ("", 0)).1

/-- Claim C7 counterexample tree: a root with both a sibling (`next = B`)
and a child (`C`). -/
def bt_cex_tree : Ctx :=
  .node "A" false (some (.node "B" false none none))
    (some (.node "C" false none none))

/-- Claim C7 counterexample: at a node with both a sibling and a child, the
code's back trace follows the sibling (`B` at the same depth), not the
child (`C` at depth 1) as the claim describes — so the claimed traversal
disagrees with `$get_back_trace` on this tree. -/
theorem bt_traversal_cex :
    get_back_trace (some bt_cex_tree) 0 = [("A", 0), ("B", 0)] ∧
    bt_claimed (some bt_cex_tree) 0 = [("A", 0), ("C", 1)] ∧
    get_back_trace (some bt_cex_tree) 0 ≠ bt_claimed (some bt_cex_tree) 0 := by
  have h1 : get_back_trace (some bt_cex_tree) 0 = [("A", 0), ("B", 0)] := by
    simp [bt_cex_tree, get_back_trace]
  have h2 : bt_claimed (some bt_cex_tree) 0 = [("A", 0), ("C", 1)] := by
    simp [bt_cex_tree, bt_claimed]
  refine ⟨h1, h2, ?_⟩
  rw [h1, h2]
  simp

/-- Claim C7 (amended): the abridged back-trace traversal at each node
prefers continuing to the node's sibling (`next`) when present and
otherwise descends into the node's child; the reported depth increments
only when descending to a child; and head nodes are omitted from the
returned sequence. -/
theorem bt_traversal_amended :
    (∀ (nm : String) (hd : Bool) (ch : Option Ctx) (n2 : Ctx),
        bt_get_next (.node nm hd (some n2) ch) = some n2 ∧
        bt_depth_increase (.node nm hd (some n2) ch) = false) ∧
    (∀ (nm : String) (hd : Bool) (ch : Option Ctx),
        bt_get_next (.node nm hd none ch) = ch ∧
        bt_depth_increase (.node nm hd none ch) = true) ∧
    (∀ (c : Ctx) (d : Nat),
        get_back_trace (some c) d =
          (if c.chead then [] else [(c.cname, d)]) ++
            get_back_trace (bt_get_next c)
              (if bt_depth_increase c then d + 1 else d)) := by
  refine ⟨fun nm hd ch n2 => ⟨rfl, rfl⟩, fun nm hd ch => ⟨rfl, rfl⟩, ?_⟩
  intro c d
  obtain ⟨nm, hd, nx, ch⟩ := c
  cases nx with
  | none =>
      simp [get_back_trace, bt_get_next, bt_depth_increase, Ctx.chead, Ctx.cname]
  | some nx2 =>
      simp [get_back_trace, bt_get_next, bt_depth_increase, Ctx.chead, Ctx.cname]

/-- An error value passed to `$throw`, classified by how the JS property
assignment `err.backtrace = ...` (part_003 line 70, sloppy mode) behaves on
it: an object (`obj`, carrying its current `backtrace` property) accepts
the assignment; a primitive such as a string or number (`prim`) silently
drops it, so a later property read yields `undefined`; `null`/`undefined`
(`nullish`) make the assignment itself raise a native TypeError. -/
inductive JSErr (E : Type) : Type where
  | obj : E → Option String → JSErr E
  | prim : E → JSErr E
  | nullish : JSErr E
deriving DecidableEq

/-- The underlying error payload, unchanged by back-trace attachment. -/
def JSErr.payload {E : Type} : JSErr E → Option E
  | .obj e _ => some e
  | .prim e => some e
  | .nullish => none

/-- The attach step `err.backtrace = $format_stack_trace($get_back_trace())`
of `$throw`: sets the property on an object, silently no-ops on a
primitive, and fails natively (`none`) on `null`/`undefined`. -/
def attach_bt {E : Type} (tree : Option Ctx) : JSErr E → Option (JSErr E)
  | .obj e _ =>
      some (.obj e (some (format_stack_trace (get_back_trace tree 0))))
  | .prim e => some (.prim e)
  | .nullish => none

/-- Reading `err.backtrace` back, as `'Backtrace: ' + err.backtrace` does in
the uncaught branch: the stored property for an object that has one, and
the string form of `undefined` otherwise. -/
def bt_prop {E : Type} : JSErr E → String
  | .obj _ (some s) => s
  | .obj _ none => "undefined"
  | .prim _ => "undefined"
  | .nullish => "undefined"

/-- Outcome of raising an exception through the environment: some
composition scope's explicit handler is invoked (with the error and its
extra arguments, after a number of call-context frame pops); or the handler
stack ran out and the two "uncaught" log lines were emitted and propagation
halted (no continuation of any kind is invoked); or the attach step raised
a native TypeError that escapes `$throw` before anything is logged or
invoked. -/
inductive ThrowResult (H E V : Type) : Type where
  | handled : H → JSErr E → List V → Nat → ThrowResult H E V
  | uncaught : Nat → List String → ThrowResult H E V
  | nativeThrow : Nat → ThrowResult H E V
deriving DecidableEq

/-- Exception propagation, translated from `Environment.prototype.$throw`
combined with `ChainBase.prototype.exception_handler`.  The exception
stack is listed topmost-first; each entry is the `exception_handler` bound
to one composition, carrying `some h` when that composition set an explicit
handler and `none` otherwise.  `$throw` pops the top entry and then runs
the attach step `err.backtrace = ...` (so a `nullish` error escapes as a
native TypeError with nothing logged, whatever the stack).  Then: with no
entry left it logs the "Uncaught exception" line and
`'Backtrace: ' + err.backtrace` (the property read back, `"undefined"` for
a primitive error) and stops; a `none` entry pops its call-context frame
(`$pop_ctx`, counted in `pops`) and re-raises the same (now annotated)
error and extras via `env.$throw.apply(null, params.slice(1))`, which runs
the attach again at the next level; a `some h` entry pops its frame and
invokes the handler with the error and extras.  The back trace is read
from `call_first`, which frame pops do not change. -/
def env_throw {H E V : Type} (tree : Option Ctx) (xs : List V) :
    JSErr E → List (Option H) → Nat → ThrowResult H E V
  | err, [], pops =>
      match attach_bt tree err with
      | none => .nativeThrow pops
      | some err2 =>
          .uncaught pops
            ["Uncaught exception -- processing chain terminated",
             "Backtrace: " ++ bt_prop err2]
  | err, none :: rest, pops =>
      match attach_bt tree err with
      | none => .nativeThrow pops
      | some err2 => env_throw tree xs err2 rest (pops + 1)
  | err, some h :: _, pops =>
      match attach_bt tree err with
      | none => .nativeThrow pops
      | some err2 => .handled h err2 xs (pops + 1)

theorem attach_bt_idem {E : Type} (tree : Option Ctx) (err err2 : JSErr E)
    (h : attach_bt tree err = some err2) : attach_bt tree err2 = some err2 := by
  cases err with
  | obj e b =>
      have h2 : JSErr.obj e
          (some (format_stack_trace (get_back_trace tree 0))) = err2 := by
        injection h
      subst h2
      rfl
  | prim e =>
      have h2 : JSErr.prim e = err2 := by injection h
      subst h2
      rfl
  | nullish => simp [attach_bt] at h

theorem attach_bt_payload {E : Type} (tree : Option Ctx) (err err2 : JSErr E)
    (h : attach_bt tree err = some err2) : err2.payload = err.payload := by
  cases err with
  | obj e b =>
      have h2 : JSErr.obj e
          (some (format_stack_trace (get_back_trace tree 0))) = err2 := by
        injection h
      subst h2
      rfl
  | prim e =>
      have h2 : JSErr.prim e = err2 := by injection h
      subst h2
      rfl
  | nullish => simp [attach_bt] at h

theorem env_throw_aux {H E V : Type} (tree : Option Ctx) (xs : List V)
    (h : H) (rest : List (Option H)) :
    ∀ (pre : List (Option H)) (pops : Nat) (err err2 : JSErr E),
      (∀ x ∈ pre, x = none) → attach_bt tree err = some err2 →
      env_throw tree xs err (pre ++ some h :: rest) pops =
        .handled h err2 xs (pops + pre.length + 1) := by
  intro pre
  induction pre with
  | nil =>
      intro pops err err2 _ hatt
      rw [List.nil_append]
      rw [show env_throw tree xs err (some h :: rest) pops =
          (match attach_bt tree err with
            | none => ThrowResult.nativeThrow pops
            | some err3 => .handled h err3 xs (pops + 1)) from rfl]
      rw [hatt]
      rfl
  | cons x xs2 ih =>
      intro pops err err2 hpre hatt
      have hx : x = none := hpre x (by simp)
      subst hx
      rw [List.cons_append]
      rw [show env_throw tree xs err (none :: (xs2 ++ some h :: rest)) pops =
          (match attach_bt tree err with
            | none => ThrowResult.nativeThrow pops
            | some err3 =>
                env_throw tree xs err3 (xs2 ++ some h :: rest) (pops + 1))
        from rfl]
      rw [hatt]
      show env_throw tree xs err2 (xs2 ++ some h :: rest) (pops + 1) =
        ThrowResult.handled h err2 xs (pops + (none :: xs2).length + 1)
      rw [ih (pops + 1) err2 err2 (fun y hy => hpre y (by simp [hy]))
        (attach_bt_idem tree err err2 hatt)]
      simp only [List.length_cons]
      congr 1
      omega

/-- Claim C5: when an exception unwinds through compositions that define no
explicit handler, each such scope's handler-stack entry pops exactly its own
call-context frame and re-raises the same error with the same extra
arguments, so the exception reaches the nearest enclosing composition with
an explicit handler: no intermediate scope is skipped (each contributes one
frame pop) and no scope resumes normal flow (the outcome is a handler
invocation, never a normal continuation).  The error object is the same one
throughout — each hop only (re-)attaches its `backtrace` annotation, and
the payload is preserved; the hypothesis excludes `null`/`undefined`
errors, which would crash the very first `$throw` before reaching any
handler entry, so no unwinding would occur at all. -/
theorem exception_forwarding (H E V : Type) (tree : Option Ctx)
    (err : JSErr E) (xs : List V) (pre : List (Option H)) (h : H)
    (rest : List (Option H)) (hpre : ∀ x ∈ pre, x = none)
    (hnn : err ≠ JSErr.nullish) :
    ∃ err2, attach_bt tree err = some err2 ∧ err2.payload = err.payload ∧
      env_throw tree xs err (pre ++ some h :: rest) 0 =
        .handled h err2 xs (pre.length + 1) := by
  obtain ⟨err2, hatt⟩ : ∃ err2, attach_bt tree err = some err2 := by
    cases err with
    | obj e b => exact ⟨_, rfl⟩
    | prim e => exact ⟨_, rfl⟩
    | nullish => exact absurd rfl hnn
  refine ⟨err2, hatt, attach_bt_payload tree err err2 hatt, ?_⟩
  have := env_throw_aux tree xs h rest pre 0 err err2 hpre hatt
  simpa using this

/-- Claim C5 witness: an exception object raised below two handler-less
scopes reaches the explicit handler `5` with its payload `1` and extra
`[2]` intact, after three frame pops (one per traversed scope). -/
theorem exception_forwarding_witness :
    ∃ err2, attach_bt (E := Nat) none (JSErr.obj 1 none) = some err2 ∧
      err2.payload = (JSErr.obj 1 none).payload ∧
      env_throw (H := Nat) (V := Nat) none [2] (JSErr.obj 1 none)
          ([none, none] ++ some 5 :: []) 0 = .handled 5 err2 [2] 3 :=
  exception_forwarding Nat Nat Nat none (JSErr.obj 1 none) [2] [none, none] 5
    [] (by intro x hx; simpa using hx) (by decide)

theorem fst_foldl_len :
    ∀ (l : List (String × Nat)) (p : String × Nat),
      p.1.length ≤ ((l.foldl fst_step p).1).length := by
  intro l
  induction l with
  | nil => intro p; simp
  | cons v l ih =>
      intro p
      refine le_trans ?_ (ih (fst_step p v))
      simp only [fst_step, String.length_append]
      omega

theorem format_stack_trace_ne_empty (bt : List (String × Nat)) (h : bt ≠ []) :
    format_stack_trace bt ≠ "" := by
  obtain ⟨v, l, hvl⟩ : ∃ v l, bt.reverse = v :: l := by
    cases hr : bt.reverse with
    | nil =>
        exfalso
        apply h
        have := congrArg List.reverse hr
        simpa using this
    | cons v l => exact ⟨v, l, rfl⟩
  have hlen : 0 < (format_stack_trace bt).length := by
    unfold format_stack_trace
    rw [hvl, List.foldl_cons]
    refine lt_of_lt_of_le ?_ (fst_foldl_len l (fst_step ("", 0) v))
    have h7 : 0 < "\n      ".length := by decide
    simp only [fst_step, String.length_append]
    omega
  intro heq
  rw [heq] at hlen
  simp at hlen

/-- Claim C6 counterexample: with an empty handler stack, throwing
`null`/`undefined` makes the attach step `err.backtrace = ...` itself raise
a native TypeError that escapes before anything is logged (falsifying "no
native error escapes" and "the sink receives exactly one notification"),
and throwing a primitive such as a string or number logs
`"Backtrace: undefined"` — the property read back after the silently
dropped assignment — instead of a formatted back-trace (falsifying
"includes a non-empty formatted back-trace string"). -/
theorem throw_uncaught_cex :
    env_throw (H := Nat) (E := Nat) (V := Nat)
        (some (.node "(anonymous chain)" false none none)) []
        JSErr.nullish [] 0 = ThrowResult.nativeThrow 0 ∧
    env_throw (H := Nat) (E := Nat) (V := Nat)
        (some (.node "(anonymous chain)" false none none)) []
        (JSErr.prim 3) [] 0 =
      ThrowResult.uncaught 0
        ["Uncaught exception -- processing chain terminated",
         "Backtrace: undefined"] := by
  constructor
  · rfl
  · decide

/-- Claim C6 (amended: object errors): calling `$throw` with an error value
that supports the property assignment `err.backtrace = ...` (an object,
e.g. an `Error`) on an environment whose exception-handler stack is empty
never invokes any continuation (the outcome is `uncaught`, which carries no
handler and no "after"), no native error escapes (the attach succeeds),
the sink receives exactly the two-line "uncaught" notification — the
"Uncaught exception" line and the "Backtrace: " line carrying the freshly
attached formatted back trace — and, provided the invocation has pushed its
call-context root (a non-head node, as every composition `apply` does via
`$push_ctx`), that back-trace string is non-empty. -/
theorem throw_uncaught_spec (H E V : Type) (tree : Ctx) (e : E)
    (b : Option String) (xs : List V) (hroot : tree.chead = false) :
    env_throw (H := H) (some tree) xs (JSErr.obj e b) [] 0 =
      .uncaught 0
        ["Uncaught exception -- processing chain terminated",
         "Backtrace: " ++ format_stack_trace (get_back_trace (some tree) 0)] ∧
    format_stack_trace (get_back_trace (some tree) 0) ≠ "" := by
  refine ⟨rfl, ?_⟩
  apply format_stack_trace_ne_empty
  obtain ⟨nm, hd, nx, ch⟩ := tree
  have hhd : hd = false := hroot
  subst hhd
  cases nx with
  | none => simp [get_back_trace]
  | some nx2 => simp [get_back_trace]

/-- Claim C6 witness: throwing an error object with an empty handler stack
during an invocation whose call tree has the printable root
"(anonymous chain)" produces exactly the uncaught outcome with its two log
lines and a non-empty back trace. -/
theorem throw_uncaught_spec_witness :
    env_throw (H := Nat) (E := Nat) (V := Nat)
        (some (.node "(anonymous chain)" false none none)) []
        (JSErr.obj 3 none) [] 0 =
      .uncaught 0
        ["Uncaught exception -- processing chain terminated",
         "Backtrace: " ++ format_stack_trace
            (get_back_trace (some (.node "(anonymous chain)" false none none)) 0)] ∧
    format_stack_trace
        (get_back_trace (some (.node "(anonymous chain)" false none none)) 0) ≠
      "" :=
  throw_uncaught_spec Nat Nat Nat (.node "(anonymous chain)" false none none)
    3 none [] rfl

/-- A scheduled entry of the tick queue, abstracted by what it enqueues when
run: running `Task.mk l` calls `queueTick` once for each element of `l`, in
order. -/
inductive Task : Type where
  | mk : List Task → Task

/-- The entries a task enqueues when it runs. -/
def Task.spawns : Task → List Task
  | .mk l => l

/-- Total size of a task list, used as the drain termination measure. -/
def lsize : List Task → Nat
  | [] => 0
  | .mk l :: ts => 1 + lsize l + lsize ts

theorem lsize_append (a b : List Task) : lsize (a ++ b) = lsize a + lsize b := by
  induction a with
  | nil => simp [lsize]
  | cons t ts ih =>
      obtain ⟨l⟩ := t
      simp only [List.cons_append, lsize, ih]
      omega

/-- The drain loop of `runTick`, translated from
`for (var idx = 0; idx < next; ++idx)`: the loop bound is the live `next`
variable, so entries enqueued by entries running within the drain are
picked up by the same loop.  Modelled as: run the head entry, then continue
with the rest of the queue followed by whatever the head enqueued; the
returned list is the execution order. -/
def drainGo : List Task → List Task
  | [] => []
  | t :: rest => t :: drainGo (rest ++ t.spawns)
termination_by q => lsize q
decreasing_by
  obtain ⟨l⟩ := t
  simp [lsize_append, lsize, Task.spawns]
  omega

/-- Global scheduler state, translated from the chain manager: the queue
(`queue`/`next`), the `tickSet` flag, and the number of `runTick` callbacks
currently registered with the host runtime's deferred-callback facility. -/
structure Sched : Type where
  queue : List Task
  tickSet : Bool
  pending : Nat

/-- Translated from `queueTick`: append the entry; if `tickSet` is clear,
register a drain with the host (`nextTick(runTick)`) and set the flag. -/
def queueTick (s : Sched) (t : Task) : Sched :=
  if s.tickSet then { s with queue := s.queue ++ [t] }
  else { queue := s.queue ++ [t], tickSet := true, pending := s.pending + 1 }

/-- Translated from `runTick`: run the whole queue (including re-entrant
entries) via the drain loop, then reset the index (`next = 0`, an empty
queue) and clear `tickSet`; the host has consumed one registered callback. -/
def runTick (s : Sched) : Sched × List Task :=
  ({ queue := [], tickSet := false, pending := s.pending - 1 }, drainGo s.queue)

theorem drainGo_sublist : ∀ (n : Nat) (q : List Task), lsize q ≤ n →
    List.Sublist q (drainGo q) := by
  intro n
  induction n with
  | zero =>
      intro q hq
      cases q with
      | nil => simp [drainGo]
      | cons t rest =>
          exfalso
          obtain ⟨l⟩ := t
          simp [lsize] at hq
  | succ n ih =>
      intro q hq
      cases q with
      | nil => simp [drainGo]
      | cons t rest =>
          rw [show drainGo (t :: rest) = t :: drainGo (rest ++ t.spawns) by
            rw [drainGo]]
          refine List.Sublist.cons₂ t ?_
          refine List.Sublist.trans (List.sublist_append_left rest t.spawns) ?_
          refine ih (rest ++ t.spawns) ?_
          obtain ⟨l⟩ := t
          simp only [lsize, Task.spawns, lsize_append] at hq ⊢
          omega

theorem drainGo_spawns_mem : ∀ (n : Nat) (q : List Task), lsize q ≤ n →
    ∀ t ∈ drainGo q, ∀ u ∈ t.spawns, u ∈ drainGo q := by
  intro n
  induction n with
  | zero =>
      intro q hq t ht
      cases q with
      | nil => simp [drainGo] at ht
      | cons t2 rest =>
          exfalso
          obtain ⟨l⟩ := t2
          simp [lsize] at hq
  | succ n ih =>
      intro q hq t ht u hu
      cases q with
      | nil => simp [drainGo] at ht
      | cons t2 rest =>
          have hsz : lsize (rest ++ t2.spawns) ≤ n := by
            obtain ⟨l⟩ := t2
            simp only [lsize, Task.spawns, lsize_append] at hq ⊢
            omega
          rw [show drainGo (t2 :: rest) = t2 :: drainGo (rest ++ t2.spawns) by
            rw [drainGo]] at ht ⊢
          rcases List.mem_cons.mp ht with rfl | htail
          · have hu2 : u ∈ rest ++ t.spawns := by
              simp [hu]
            have := (drainGo_sublist (lsize (rest ++ t.spawns))
              (rest ++ t.spawns) le_rfl).subset hu2
            exact List.mem_cons_of_mem _ this
          · exact List.mem_cons_of_mem _ (ih (rest ++ t2.spawns) hsz t htail u hu)

/-- Claim C8: the drain runs every queued entry in enqueue order (the
original queue is an in-order sublist of the execution order), entries
enqueued during the drain run in the same drain pass (every entry spawned
by an executed entry is itself executed in that drain), `queueTick`
preserves the at-most-one-pending-drain invariant (the `tickSet` flag
guards double-registration), and after a drain the queue is logically empty
and the flag is cleared, consuming the one registered callback. -/
theorem tick_scheduler_spec :
    (∀ q : List Task, List.Sublist q (drainGo q)) ∧
    (∀ q : List Task, ∀ t ∈ drainGo q, ∀ u ∈ t.spawns, u ∈ drainGo q) ∧
    (∀ (s : Sched) (t : Task), s.pending = (if s.tickSet then 1 else 0) →
        (queueTick s t).pending = (if (queueTick s t).tickSet then 1 else 0) ∧
        (queueTick s t).pending ≤ 1) ∧
    (∀ s : Sched, s.pending = (if s.tickSet then 1 else 0) →
        (runTick s).1.queue = [] ∧ (runTick s).1.tickSet = false ∧
        (runTick s).1.pending = (if (runTick s).1.tickSet then 1 else 0) ∧
        (runTick s).2 = drainGo s.queue) := by
  refine ⟨fun q => drainGo_sublist (lsize q) q le_rfl,
    fun q => drainGo_spawns_mem (lsize q) q le_rfl, ?_, ?_⟩
  · intro s t hinv
    by_cases hts : s.tickSet
    · constructor
      · simp [queueTick, hts, hinv]
      · simp [queueTick, hts, hinv]
    · constructor
      · simp [queueTick, hts, hinv]
      · simp [queueTick, hts, hinv]
  · intro s hinv
    refine ⟨rfl, rfl, ?_, rfl⟩
    by_cases hts : s.tickSet
    · simp [runTick, hinv, hts]
    · simp [runTick, hinv, hts]

/-- Claim C8 witness: from the idle state, scheduling one entry registers
exactly one drain and keeps the invariant. -/
theorem tick_scheduler_spec_witness :
    (queueTick ⟨[], false, 0⟩ (.mk [])).pending =
      (if (queueTick ⟨[], false, 0⟩ (.mk [])).tickSet then 1 else 0) ∧
    (queueTick ⟨[], false, 0⟩ (.mk [])).pending ≤ 1 :=
  tick_scheduler_spec.2.2.1 ⟨[], false, 0⟩ (.mk []) rfl

/-- Outcome of the first scheduled run of a Serial Chain's step runner
(`__chain_inner`): either the runner dereferenced an absent step descriptor
(`fns[idx]` was `undefined`, so `info.params` inside `handle_args` raises a
native TypeError before the try/catch is entered), or it reached the
try-block and invoked the step with its adapted arguments. -/
inductive RunOutcome (V : Type) : Type where
  | nativeError : RunOutcome V
  | stepInvoked : Nat → List V → RunOutcome V
deriving DecidableEq

/-- `handle_args` lifted over the possibly-missing step descriptor, as in
`Chain.prototype.handle_args.call(null, env, v, ...)` with `v = fns[idx]`:
when `v` is `undefined`, evaluating `info.params` throws natively. -/
def handle_args_opt {V : Type} (stack : List V) (info : Option Nat)
    (args : List V) : Option (List V × List V) :=
  match info with
  | none => none
  | some p => some (handle_args stack p args)

/-- The first `__chain_inner` call of `Chain.prototype.apply`, which
`cm.queueTick(cb, args.slice(2))` schedules unconditionally (the
`idx < fns.length` guard lives in `__tail` and is not consulted for the
initial call): read `fns[0]`, adapt arguments — outside the try/catch —
and only then enter the try-block that coerces step failures into
`env.$throw`. -/
def chain_inner_start {V : Type} (fns : List Nat) (stack args : List V) :
    RunOutcome V :=
  match handle_args_opt stack fns[0]? args with
  | none => .nativeError
  | some pr => .stepInvoked 0 pr.2

/-- Claim C9: invoking a Serial Chain with an empty step list makes the
scheduled step runner dereference the missing first descriptor inside
`handle_args` before its try/catch, producing an unguarded native error —
never a step invocation, hence neither the terminal "after" nor
`throwException` (which are only reachable through a step's run). -/
theorem chain_inner_empty_native (V : Type) (stack args : List V) :
    chain_inner_start [] stack args = RunOutcome.nativeError := rfl

end FluxLink
